import Mathlib

/-!
Verification of the meshoptimizer codectest vertex codec
(src/tools/codectest.cpp) against its specification.

The C++ source is embedded shallowly:
* bytes are `Nat` values; the `unsigned char` type of the source is modelled
  by reducing modulo 256 exactly where the C integer conversions truncate;
* output buffers written through a cursor become returned `List Nat` values;
* the remaining destination capacity `data_end - data` becomes an explicit
  `Nat` parameter `cap`, and the C failure sentinel (`NULL` cursor / return 0)
  becomes `Option`.
-/

/-! ## Constants (from codectest.cpp lines 17-25) -/

def kVertexHeader : Nat := 0xa0

def gEncodeVertexVersion : Nat := 1

def kVertexBlockSizeBytes : Nat := 8192

def kVertexBlockMaxSize : Nat := 256

def kByteGroupSize : Nat := 16

def kByteGroupDecodeLimit : Nat := 24

def kTailMaxSize : Nat := 32

/-! ## getVertexBlockSize (lines 27-37)

`result &= ~(kByteGroupSize - 1)` clears the low 4 bits, i.e. subtracts
`result % 16`; the final conditional is the min with `kVertexBlockMaxSize`. -/

def getVertexBlockSize (vertex_size : Nat) : Nat :=
  let result := kVertexBlockSizeBytes / vertex_size
  let result2 := result - result % kByteGroupSize
  if result2 < kVertexBlockMaxSize then result2 else kVertexBlockMaxSize

/-! ## zigzag8 (lines 39-42)

`((signed char)(v) >> 7) ^ (v << 1)` on an `unsigned char` argument: the
arithmetic right shift of the sign-extended byte is -1 (low byte 255) when the
byte is at least 128 and 0 otherwise; the xor happens in `int` and the result
is truncated back to a byte on return. -/

def zigzag8 (v : Nat) : Nat :=
  ((if 128 ≤ v % 256 then 255 else 0) ^^^ ((v % 256) <<< 1)) % 256

/-! ## encodeBytesGroupZero (lines 57-64) -/

def encodeBytesGroupZero (buffer : List Nat) : Bool :=
  (List.range kByteGroupSize).all (fun i => buffer.getD i 0 == 0)

/-! ## encodeBytesGroupTry (lines 66-110)

The source writes candidate bytes through the cursor and returns the advanced
cursor (or NULL for an inapplicable width); here the emitted bytes are
returned as a list.  `encodeGroupFixedByte` is the inner loop of lines 86-99
producing one packed output byte starting at input index `i`; the
`byte <<= bits` of the source truncates at the `unsigned char` assignment,
hence the `% 256`. -/

def encodeGroupFixedByte (buffer : List Nat) (bits i : Nat) : Nat :=
  (List.range (8 / bits)).foldl
    (fun byte k =>
      let v := buffer.getD (i + k) 0
      let enc := if 2 ^ bits - 1 ≤ v then 2 ^ bits - 1 else v
      ((byte <<< bits) % 256) ||| enc)
    0

def encodeBytesGroupTry (buffer : List Nat) (bits : Nat) : Option (List Nat) :=
  if bits = 1 then
    if encodeBytesGroupZero buffer then some [] else none
  else if bits = 8 then
    some ((List.range kByteGroupSize).map (fun i => buffer.getD i 0))
  else
    let byte_size := 8 / bits
    let sentinel := 2 ^ bits - 1
    some (((List.range (kByteGroupSize / byte_size)).map
        (fun j => encodeGroupFixedByte buffer bits (j * byte_size))) ++
      (((List.range kByteGroupSize).map (fun i => buffer.getD i 0)).filter
        (fun v => sentinel ≤ v)))

/-! ## encodeBytes (lines 112-169)

`bestBits` is the width-selection loop of lines 133-145 (baseline width 8 of
size 16, then widths 1, 2, 4 in order, keeping a strictly smaller size);
`bitslog2Of` is line 147.  `encodeGroupsLoop` is the per-group loop of lines
128-162, rerunning the winning width (line 154, `groupEmit`); `headerBytes`
reconstructs the zero-initialised header byte array after all the
`header[offset / 4] |= code << ((offset % 4) * 2)` updates of line 152. -/

def bestBits (buffer : List Nat) : Nat :=
  (([1, 2, 4] : List Nat).foldl
    (fun best bits =>
      match encodeBytesGroupTry buffer bits with
      | some next => if next.length < best.2 then (bits, next.length) else best
      | none => best)
    (8, ((encodeBytesGroupTry buffer 8).getD []).length)).1

def bitslog2Of (best_bits : Nat) : Nat :=
  if best_bits = 1 then 0 else if best_bits = 2 then 1 else if best_bits = 4 then 2 else 3

def groupEmit (buffer : List Nat) : List Nat :=
  (encodeBytesGroupTry buffer (bestBits buffer)).getD []

def encodeGroupsLoop (rem : Nat) : List (List Nat) → Option (List Nat × List Nat)
  | [] => some ([], [])
  | g :: gs =>
    if rem < kByteGroupDecodeLimit then none
    else
      match encodeBytesGroupTry g (bestBits g) with
      | none => none
      | some next =>
        match encodeGroupsLoop (rem - next.length) gs with
        | none => none
        | some (codes, payload) =>
          some (bitslog2Of (bestBits g) :: codes, next ++ payload)

def groupsOf (buffer : List Nat) : List (List Nat) :=
  (List.range (buffer.length / kByteGroupSize)).map
    (fun j => (buffer.drop (kByteGroupSize * j)).take kByteGroupSize)

def headerBytes (codes : List Nat) (header_size : Nat) : List Nat :=
  (List.range header_size).map (fun m =>
    (List.range 4).foldl (fun acc s => acc ||| ((codes.getD (4 * m + s) 0) <<< (2 * s))) 0)

def encodeBytes (cap : Nat) (buffer : List Nat) : Option (List Nat) :=
  let header_size := (buffer.length / kByteGroupSize + 3) / 4
  if cap < header_size then none
  else
    match encodeGroupsLoop (cap - header_size) (groupsOf buffer) with
    | none => none
    | some (codes, payload) => some (headerBytes codes header_size ++ payload)

/-! ## encodeVertexBlock (lines 171-226)

`channelDeltas` is the inner loop of lines 185-194: the running predictor `p`
starts at `last_vertex[k]` and is updated to the raw byte after each record;
the subtraction `vertex_data[offset] - p` of two bytes is truncated to a byte
at the `zigzag8` call.  The scratch buffer is zero-initialised (line 179) and
handed to `encodeBytes` with the size rounded up to a multiple of 16
(line 213), hence the zero padding.  `lastRecord` is the single `memcpy` of
line 223, performed once per block after all channels. -/

def channelDeltas (raw : List Nat) (p : Nat) : List Nat :=
  match raw with
  | [] => []
  | v :: rest => zigzag8 ((v % 256 + 256 - p % 256) % 256) :: channelDeltas rest v

def channelRaw (vertex_data : List Nat) (vertex_count vertex_size k : Nat) : List Nat :=
  (List.range vertex_count).map (fun i => vertex_data.getD (i * vertex_size + k) 0)

def roundUp16 (n : Nat) : Nat :=
  (n + kByteGroupSize - 1) - (n + kByteGroupSize - 1) % kByteGroupSize

def paddedDeltas (vertex_data : List Nat) (vertex_count vertex_size k p : Nat) : List Nat :=
  channelDeltas (channelRaw vertex_data vertex_count vertex_size k) p ++
    List.replicate (roundUp16 vertex_count - vertex_count) 0

def encodeChannelsLoop (cap : Nat) (vertex_data : List Nat) (vertex_count vertex_size : Nat)
    (last_vertex : List Nat) : List Nat → Option (List Nat)
  | [] => some []
  | k :: ks =>
    match encodeBytes cap (paddedDeltas vertex_data vertex_count vertex_size k (last_vertex.getD k 0)) with
    | none => none
    | some out =>
      match encodeChannelsLoop (cap - out.length) vertex_data vertex_count vertex_size last_vertex ks with
      | none => none
      | some rest => some (out ++ rest)

def lastRecord (vertex_data : List Nat) (vertex_count vertex_size : Nat) : List Nat :=
  (List.range vertex_size).map (fun k => vertex_data.getD ((vertex_count - 1) * vertex_size + k) 0)

def encodeVertexBlock (cap : Nat) (vertex_data : List Nat) (vertex_count vertex_size : Nat)
    (last_vertex : List Nat) : Option (List Nat × List Nat) :=
  match encodeChannelsLoop cap vertex_data vertex_count vertex_size last_vertex
      (List.range vertex_size) with
  | none => none
  | some out => some (out, lastRecord vertex_data vertex_count vertex_size)

/-! ## encodeV1 (lines 228-314)

`blockSizes` materialises the sizes of the consecutive blocks produced by the
`while (vertex_offset < vertex_count)` loop of lines 260-269: each block takes
`min vertex_block_size remaining` records.  The structural fuel equals the
record count (each block consumes at least one record); the `vbs = 0` guard is
unreachable under the asserted precondition `vertex_size ≤ 256`, which makes
`getVertexBlockSize` at least 32. -/

def blockSizesGo (vbs : Nat) : Nat → Nat → List Nat
  | 0, _ => []
  | _ + 1, 0 => []
  | fuel + 1, n + 1 =>
    if vbs = 0 then []
    else
      let b := min vbs (n + 1)
      b :: blockSizesGo vbs fuel (n + 1 - b)

def blockSizes (vbs n : Nat) : List Nat := blockSizesGo vbs n n

def encodeBlocksLoop (cap vertex_size : Nat) (last_vertex vertex_data : List Nat) :
    List Nat → Option (List Nat)
  | [] => some []
  | b :: rest =>
    match encodeVertexBlock cap vertex_data b vertex_size last_vertex with
    | none => none
    | some (out, lv) =>
      match encodeBlocksLoop (cap - out.length) vertex_size lv
          (vertex_data.drop (b * vertex_size)) rest with
      | none => none
      | some more => some (out ++ more)

def firstVertex (vertices : List Nat) (vertex_count vertex_size : Nat) : List Nat :=
  if 0 < vertex_count then (List.range vertex_size).map (fun k => vertices.getD k 0)
  else List.replicate vertex_size 0

def encodeV1Bytes (buffer_size : Nat) (vertices : List Nat) (vertex_count vertex_size : Nat) :
    Option (List Nat) :=
  if buffer_size < 1 + vertex_size then none
  else
    match encodeBlocksLoop (buffer_size - 1) vertex_size
        (firstVertex vertices vertex_count vertex_size) vertices
        (blockSizes (getVertexBlockSize vertex_size) vertex_count) with
    | none => none
    | some blocks =>
      let tail_size := if vertex_size < kTailMaxSize then kTailMaxSize else vertex_size
      if buffer_size - 1 - blocks.length < tail_size then none
      else
        some (((kVertexHeader ||| gEncodeVertexVersion) % 256) :: blocks ++
          (if vertex_size < kTailMaxSize then List.replicate (kTailMaxSize - vertex_size) 0
           else []) ++
          firstVertex vertices vertex_count vertex_size)

def encodeV1 (buffer_size : Nat) (vertices : List Nat) (vertex_count vertex_size : Nat) : Nat :=
  match encodeV1Bytes buffer_size vertices vertex_count vertex_size with
  | none => 0
  | some out => out.length

/-! ## encodeNDZ (lines 316-363)

The alternative bit-plane codec.  Words are read little-endian from the byte
array; all 32-bit arithmetic reduces modulo 2^32 where the C `unsigned int`
wraps.  Note that the source never consults `buffer_size`: the returned pair
is (return value `pos - buffer`, the sequence of 32-bit words stored). -/

def readWord32 (vertices : List Nat) (off : Nat) : Nat :=
  vertices.getD off 0 % 256 + 256 * (vertices.getD (off + 1) 0 % 256) +
    65536 * (vertices.getD (off + 2) 0 % 256) + 16777216 * (vertices.getD (off + 3) 0 % 256)

def rot1 (v : Nat) : Nat := ((v <<< 1) % 4294967296) ||| (v >>> 31)

def ndzFold (d : Nat) : Nat := if 2147483648 ≤ d then d ^^^ 2147483647 else d

def ndzDelta (value last : Nat) : Nat :=
  ndzFold ((value + 4294967296 - last % 4294967296) % 4294967296)

def ndzDeltasLoop (ws : List Nat) (last : Nat) : List Nat :=
  match ws with
  | [] => []
  | w :: rest =>
    let value := rot1 (w % 4294967296)
    ndzDelta value last :: ndzDeltasLoop rest value

def ndzChannelWords (vertices : List Nat) (vertex_count vertex_size k : Nat) : List Nat :=
  (List.range vertex_count).map (fun i => readWord32 vertices (i * vertex_size + k))

def ndzChunk (deltas : List Nat) (i : Nat) : List Nat :=
  (List.range 32).map (fun j => deltas.getD (i + j) 0)

def ndzTransposed (chunk : List Nat) : List Nat :=
  (List.range 32).map (fun r =>
    (List.range 32).foldl
      (fun t c => if chunk.getD c 0 &&& (1 <<< r) ≠ 0 then t ||| (1 <<< c) else t) 0)

def ndzMask (transposed : List Nat) : Nat :=
  (List.range 32).foldl (fun m j => if transposed.getD j 0 ≠ 0 then m ||| (1 <<< j) else m) 0

def ndzChunkWords (chunk : List Nat) : List Nat :=
  let t := ndzTransposed chunk
  ndzMask t :: t.filter (fun w => w ≠ 0)

def ndzChannelOut (deltas : List Nat) (vertex_count : Nat) : List Nat :=
  ((List.range ((vertex_count + 31) / 32)).map
    (fun c => ndzChunkWords (ndzChunk deltas (32 * c)))).flatten

def encodeNDZ (buffer_size : Nat) (vertices : List Nat) (vertex_count vertex_size : Nat) :
    Nat × List Nat :=
  let words := ((List.range ((vertex_size + 3) / 4)).map (fun kq =>
    ndzChannelOut
      (ndzDeltasLoop (ndzChannelWords vertices vertex_count vertex_size (4 * kq)) 0)
      vertex_count)).flatten
  (4 * words.length, words)

/-! ## Basic helper lemmas -/

theorem getD_map_range {α : Type} (f : Nat → α) {n m : Nat} (d : α) (h : m < n) :
    ((List.range n).map f).getD m d = f m := by
  rw [List.getD_eq_getElem?_getD, List.getElem?_map, List.getElem?_range h]
  rfl

theorem shiftLeft_lor_eq_add (x a b : Nat) (h : a < 2 ^ b) :
    (x <<< b) ||| a = x * 2 ^ b + a := by
  apply Nat.eq_of_testBit_eq
  intro i
  rw [Nat.testBit_lor, Nat.testBit_shiftLeft,
    show x * 2 ^ b + a = 2 ^ b * x + a by ring, Nat.testBit_mul_pow_two_add x h i]
  by_cases hib : i < b
  · simp [Nat.not_le.mpr hib, hib]
  · have hbi : b ≤ i := Nat.not_lt.mp hib
    rw [Nat.testBit_lt_two_pow (lt_of_lt_of_le h (Nat.pow_le_pow_right (by omega) hbi))]
    simp [hbi, hib]

theorem lor_shiftLeft_eq_add (acc c k : Nat) (h : acc < 2 ^ k) :
    acc ||| (c <<< k) = c * 2 ^ k + acc := by
  rw [Nat.lor_comm]
  exact shiftLeft_lor_eq_add c acc k h

theorem length_filter_le16 (g : List Nat) (p : Nat → Bool) :
    (((List.range 16).map (fun i => g.getD i 0)).filter p).length ≤ 16 := by
  have h := List.length_filter_le p ((List.range 16).map (fun i => g.getD i 0))
  simpa using h

/-! ## Byte-group level lemmas -/

theorem try1_eq (g : List Nat) :
    encodeBytesGroupTry g 1 = if encodeBytesGroupZero g then some [] else none := rfl

theorem try8_eq (g : List Nat) :
    encodeBytesGroupTry g 8 = some ((List.range 16).map (fun i => g.getD i 0)) := rfl

theorem try2_eq (g : List Nat) :
    encodeBytesGroupTry g 2 =
      some (((List.range 4).map (fun j => encodeGroupFixedByte g 2 (j * 4))) ++
        (((List.range 16).map (fun i => g.getD i 0)).filter (fun v => 3 ≤ v))) := rfl

theorem try4_eq (g : List Nat) :
    encodeBytesGroupTry g 4 =
      some (((List.range 8).map (fun j => encodeGroupFixedByte g 4 (j * 2))) ++
        (((List.range 16).map (fun i => g.getD i 0)).filter (fun v => 15 ≤ v))) := rfl

theorem try8_getD_length (g : List Nat) : ((encodeBytesGroupTry g 8).getD []).length = 16 := by
  rw [try8_eq]
  simp

theorem try2_getD_length (g : List Nat) :
    ((encodeBytesGroupTry g 2).getD []).length =
      4 + (((List.range 16).map (fun i => g.getD i 0)).filter (fun v => 3 ≤ v)).length := by
  rw [try2_eq]
  simp

theorem try4_getD_length (g : List Nat) :
    ((encodeBytesGroupTry g 4).getD []).length =
      8 + (((List.range 16).map (fun i => g.getD i 0)).filter (fun v => 15 ≤ v)).length := by
  rw [try4_eq]
  simp

theorem try2_getD_length_le (g : List Nat) : ((encodeBytesGroupTry g 2).getD []).length ≤ 20 := by
  rw [try2_getD_length]
  have := length_filter_le16 g (fun v => 3 ≤ v)
  omega

theorem try4_getD_length_le (g : List Nat) : ((encodeBytesGroupTry g 4).getD []).length ≤ 24 := by
  rw [try4_getD_length]
  have := length_filter_le16 g (fun v => 15 ≤ v)
  omega

theorem bestBits_zero (g : List Nat) (h : encodeBytesGroupZero g = true) :
    bestBits g = 1 := by
  simp only [bestBits, List.foldl_cons, List.foldl_nil, try1_eq, try2_eq, try4_eq, h,
    try8_getD_length]
  simp

theorem bestBits_nonzero (g : List Nat) (h : encodeBytesGroupZero g = false) :
    bestBits g = 2 ∨ bestBits g = 4 ∨ bestBits g = 8 := by
  simp only [bestBits, List.foldl_cons, List.foldl_nil, try1_eq, try2_eq, try4_eq, h,
    try8_getD_length]
  simp only [Bool.false_eq_true, if_false]
  split <;> split <;> simp_all

theorem bestBits_mem (g : List Nat) :
    bestBits g = 1 ∨ bestBits g = 2 ∨ bestBits g = 4 ∨ bestBits g = 8 := by
  cases hz : encodeBytesGroupZero g
  · exact Or.inr (bestBits_nonzero g hz)
  · exact Or.inl (bestBits_zero g hz)

theorem groupEmit_spec (g : List Nat) :
    encodeBytesGroupTry g (bestBits g) = some (groupEmit g) ∧
      (groupEmit g).length ≤ kByteGroupDecodeLimit := by
  have hmem := bestBits_mem g
  have h24 : (24 : Nat) = kByteGroupDecodeLimit := rfl
  rcases hmem with hb | hb | hb | hb <;> rw [groupEmit, hb]
  · have hz : encodeBytesGroupZero g = true := by
      by_contra hfalse
      have := bestBits_nonzero g (Bool.not_eq_true _ ▸ Bool.eq_false_iff.mpr hfalse)
      omega
    rw [try1_eq, hz]
    simp [kByteGroupDecodeLimit]
  · rw [try2_eq]
    have := try2_getD_length_le g
    rw [try2_getD_length] at this
    simp only [Option.getD_some]
    refine ⟨trivial, ?_⟩
    simp only [List.length_append, List.length_map, List.length_range]
    rw [← h24]
    omega
  · rw [try4_eq]
    have := try4_getD_length_le g
    rw [try4_getD_length] at this
    simp only [Option.getD_some]
    refine ⟨trivial, ?_⟩
    simp only [List.length_append, List.length_map, List.length_range]
    rw [← h24]
    omega
  · rw [try8_eq]
    simp [kByteGroupDecodeLimit]

/-! ## Exact characterization of the group-sequence encoder

For each loop of the source, a total "emitted bytes" function and a minimal
sufficient capacity ("need") are derived, and the Option-returning embedding
is proved equal to `if need ≤ cap then some emit else none`. -/

def groupsNeed : List (List Nat) → Nat
  | [] => 0
  | g :: gs => max kByteGroupDecodeLimit ((groupEmit g).length + groupsNeed gs)

def groupsCodes (gs : List (List Nat)) : List Nat :=
  gs.map (fun g => bitslog2Of (bestBits g))

def groupsPayload (gs : List (List Nat)) : List Nat :=
  (gs.map groupEmit).flatten

theorem groupsPayload_le_need (gs : List (List Nat)) :
    (groupsPayload gs).length ≤ groupsNeed gs := by
  induction gs with
  | nil => simp [groupsPayload, groupsNeed]
  | cons g gs ih =>
    simp only [groupsPayload, groupsNeed, List.map_cons, List.flatten_cons, List.length_append]
    have := ih
    simp only [groupsPayload] at this
    omega

theorem groupsNeed_le_payload_add (gs : List (List Nat)) :
    groupsNeed gs ≤ (groupsPayload gs).length + kByteGroupDecodeLimit := by
  induction gs with
  | nil => simp [groupsPayload, groupsNeed]
  | cons g gs ih =>
    simp only [groupsPayload, groupsNeed, List.map_cons, List.flatten_cons, List.length_append]
    have := ih
    simp only [groupsPayload] at this
    omega

theorem encodeGroupsLoop_eq (gs : List (List Nat)) : ∀ rem : Nat,
    encodeGroupsLoop rem gs =
      if groupsNeed gs ≤ rem then some (groupsCodes gs, groupsPayload gs) else none := by
  induction gs with
  | nil =>
    intro rem
    simp [encodeGroupsLoop, groupsNeed, groupsCodes, groupsPayload]
  | cons g gs ih =>
    intro rem
    have hemit := groupEmit_spec g
    simp only [encodeGroupsLoop, hemit.1, groupsNeed, groupsCodes, groupsPayload,
      List.map_cons, List.flatten_cons]
    rw [ih (rem - (groupEmit g).length)]
    by_cases hrem : rem < kByteGroupDecodeLimit
    · rw [if_pos hrem, if_neg (by omega)]
    · rw [if_neg hrem]
      by_cases hneed : groupsNeed gs ≤ rem - (groupEmit g).length
      · rw [if_pos hneed, if_pos (by omega)]
        rfl
      · rw [if_neg hneed, if_neg (by omega)]

def bytesNeed (buffer : List Nat) : Nat :=
  (buffer.length / kByteGroupSize + 3) / 4 + groupsNeed (groupsOf buffer)

def bytesEmit (buffer : List Nat) : List Nat :=
  headerBytes (groupsCodes (groupsOf buffer)) ((buffer.length / kByteGroupSize + 3) / 4) ++
    groupsPayload (groupsOf buffer)

theorem headerBytes_length (codes : List Nat) (header_size : Nat) :
    (headerBytes codes header_size).length = header_size := by
  simp [headerBytes]

theorem bytesEmit_le_need (buffer : List Nat) :
    (bytesEmit buffer).length ≤ bytesNeed buffer := by
  simp only [bytesEmit, bytesNeed, List.length_append, headerBytes_length]
  have := groupsPayload_le_need (groupsOf buffer)
  omega

theorem bytesNeed_le_emit_add (buffer : List Nat) :
    bytesNeed buffer ≤ (bytesEmit buffer).length + kByteGroupDecodeLimit := by
  simp only [bytesEmit, bytesNeed, List.length_append, headerBytes_length]
  have := groupsNeed_le_payload_add (groupsOf buffer)
  omega

theorem encodeBytes_eq (cap : Nat) (buffer : List Nat) :
    encodeBytes cap buffer =
      if bytesNeed buffer ≤ cap then some (bytesEmit buffer) else none := by
  simp only [encodeBytes, bytesNeed, bytesEmit]
  rw [encodeGroupsLoop_eq (groupsOf buffer)]
  by_cases hcap : cap < (buffer.length / kByteGroupSize + 3) / 4
  · rw [if_pos hcap, if_neg (by omega)]
  · rw [if_neg hcap]
    by_cases hneed : groupsNeed (groupsOf buffer) ≤ cap - (buffer.length / kByteGroupSize + 3) / 4
    · rw [if_pos hneed, if_pos (by omega)]
    · rw [if_neg hneed, if_neg (by omega)]

/-! ## Exact characterization of the vertex-block and stream encoders -/

def channelEmit (vertex_data : List Nat) (vertex_count vertex_size : Nat)
    (last_vertex : List Nat) (k : Nat) : List Nat :=
  bytesEmit (paddedDeltas vertex_data vertex_count vertex_size k (last_vertex.getD k 0))

def channelsNeed (vertex_data : List Nat) (vertex_count vertex_size : Nat)
    (last_vertex : List Nat) : List Nat → Nat
  | [] => 0
  | k :: ks =>
    max (bytesNeed (paddedDeltas vertex_data vertex_count vertex_size k (last_vertex.getD k 0)))
      ((channelEmit vertex_data vertex_count vertex_size last_vertex k).length +
        channelsNeed vertex_data vertex_count vertex_size last_vertex ks)

def channelsEmit (vertex_data : List Nat) (vertex_count vertex_size : Nat)
    (last_vertex : List Nat) (ks : List Nat) : List Nat :=
  (ks.map (channelEmit vertex_data vertex_count vertex_size last_vertex)).flatten

theorem channelsEmit_le_need (vertex_data : List Nat) (vertex_count vertex_size : Nat)
    (last_vertex : List Nat) (ks : List Nat) :
    (channelsEmit vertex_data vertex_count vertex_size last_vertex ks).length ≤
      channelsNeed vertex_data vertex_count vertex_size last_vertex ks := by
  induction ks with
  | nil => simp [channelsEmit, channelsNeed]
  | cons k ks ih =>
    simp only [channelsEmit, channelsNeed, List.map_cons, List.flatten_cons, List.length_append]
    have h1 := bytesEmit_le_need
      (paddedDeltas vertex_data vertex_count vertex_size k (last_vertex.getD k 0))
    simp only [channelsEmit] at ih
    simp only [channelEmit]
    omega

theorem channelsNeed_le_emit_add (vertex_data : List Nat) (vertex_count vertex_size : Nat)
    (last_vertex : List Nat) (ks : List Nat) :
    channelsNeed vertex_data vertex_count vertex_size last_vertex ks ≤
      (channelsEmit vertex_data vertex_count vertex_size last_vertex ks).length +
        kByteGroupDecodeLimit := by
  induction ks with
  | nil => simp [channelsEmit, channelsNeed, kByteGroupDecodeLimit]
  | cons k ks ih =>
    simp only [channelsEmit, channelsNeed, List.map_cons, List.flatten_cons, List.length_append]
    have h1 := bytesNeed_le_emit_add
      (paddedDeltas vertex_data vertex_count vertex_size k (last_vertex.getD k 0))
    simp only [channelsEmit] at ih
    simp only [channelEmit] at h1 ⊢
    omega

theorem encodeChannelsLoop_eq (vertex_data : List Nat) (vertex_count vertex_size : Nat)
    (last_vertex : List Nat) (ks : List Nat) : ∀ cap : Nat,
    encodeChannelsLoop cap vertex_data vertex_count vertex_size last_vertex ks =
      if channelsNeed vertex_data vertex_count vertex_size last_vertex ks ≤ cap then
        some (channelsEmit vertex_data vertex_count vertex_size last_vertex ks)
      else none := by
  induction ks with
  | nil =>
    intro cap
    simp [encodeChannelsLoop, channelsNeed, channelsEmit]
  | cons k ks ih =>
    intro cap
    have hle := bytesEmit_le_need
      (paddedDeltas vertex_data vertex_count vertex_size k (last_vertex.getD k 0))
    simp only [encodeChannelsLoop, encodeBytes_eq]
    by_cases hb : bytesNeed
        (paddedDeltas vertex_data vertex_count vertex_size k (last_vertex.getD k 0)) ≤ cap
    · rw [if_pos hb]
      dsimp only
      rw [ih (cap - (bytesEmit
        (paddedDeltas vertex_data vertex_count vertex_size k (last_vertex.getD k 0))).length)]
      by_cases hrest : channelsNeed vertex_data vertex_count vertex_size last_vertex ks ≤
          cap - (bytesEmit
            (paddedDeltas vertex_data vertex_count vertex_size k (last_vertex.getD k 0))).length
      · rw [if_pos hrest, if_pos (by
          simp only [channelsNeed, channelEmit]
          omega)]
        rfl
      · rw [if_neg hrest, if_neg (by
          simp only [channelsNeed, channelEmit]
          omega)]
    · rw [if_neg hb, if_neg (by
        simp only [channelsNeed, channelEmit]
        omega)]

def blockEmit (vertex_data : List Nat) (vertex_count vertex_size : Nat)
    (last_vertex : List Nat) : List Nat :=
  channelsEmit vertex_data vertex_count vertex_size last_vertex (List.range vertex_size)

def blockNeed (vertex_data : List Nat) (vertex_count vertex_size : Nat)
    (last_vertex : List Nat) : Nat :=
  channelsNeed vertex_data vertex_count vertex_size last_vertex (List.range vertex_size)

theorem encodeVertexBlock_eq (cap : Nat) (vertex_data : List Nat)
    (vertex_count vertex_size : Nat) (last_vertex : List Nat) :
    encodeVertexBlock cap vertex_data vertex_count vertex_size last_vertex =
      if blockNeed vertex_data vertex_count vertex_size last_vertex ≤ cap then
        some (blockEmit vertex_data vertex_count vertex_size last_vertex,
          lastRecord vertex_data vertex_count vertex_size)
      else none := by
  simp only [encodeVertexBlock, encodeChannelsLoop_eq, blockNeed, blockEmit]
  by_cases hn : channelsNeed vertex_data vertex_count vertex_size last_vertex
      (List.range vertex_size) ≤ cap
  · rw [if_pos hn, if_pos hn]
  · rw [if_neg hn, if_neg hn]

def blocksEmit (vertex_size : Nat) (last_vertex vertex_data : List Nat) : List Nat → List Nat
  | [] => []
  | b :: rest =>
    blockEmit vertex_data b vertex_size last_vertex ++
      blocksEmit vertex_size (lastRecord vertex_data b vertex_size)
        (vertex_data.drop (b * vertex_size)) rest

def blocksNeed (vertex_size : Nat) (last_vertex vertex_data : List Nat) : List Nat → Nat
  | [] => 0
  | b :: rest =>
    max (blockNeed vertex_data b vertex_size last_vertex)
      ((blockEmit vertex_data b vertex_size last_vertex).length +
        blocksNeed vertex_size (lastRecord vertex_data b vertex_size)
          (vertex_data.drop (b * vertex_size)) rest)

theorem blocksEmit_le_need (vertex_size : Nat) (bs : List Nat) :
    ∀ last_vertex vertex_data : List Nat,
    (blocksEmit vertex_size last_vertex vertex_data bs).length ≤
      blocksNeed vertex_size last_vertex vertex_data bs := by
  induction bs with
  | nil => intro lv d; simp [blocksEmit, blocksNeed]
  | cons b rest ih =>
    intro lv d
    simp only [blocksEmit, blocksNeed, List.length_append]
    have h1 := channelsEmit_le_need d b vertex_size lv (List.range vertex_size)
    have h2 := ih (lastRecord d b vertex_size) (d.drop (b * vertex_size))
    simp only [blockEmit, blockNeed]
    omega

theorem blocksNeed_le_emit_add (vertex_size : Nat) (bs : List Nat) :
    ∀ last_vertex vertex_data : List Nat,
    blocksNeed vertex_size last_vertex vertex_data bs ≤
      (blocksEmit vertex_size last_vertex vertex_data bs).length + kByteGroupDecodeLimit := by
  induction bs with
  | nil => intro lv d; simp [blocksEmit, blocksNeed, kByteGroupDecodeLimit]
  | cons b rest ih =>
    intro lv d
    simp only [blocksEmit, blocksNeed, List.length_append]
    have h1 := channelsNeed_le_emit_add d b vertex_size lv (List.range vertex_size)
    have h2 := ih (lastRecord d b vertex_size) (d.drop (b * vertex_size))
    simp only [blockEmit, blockNeed] at *
    omega

theorem encodeBlocksLoop_eq (vertex_size : Nat) (bs : List Nat) :
    ∀ (cap : Nat) (last_vertex vertex_data : List Nat),
    encodeBlocksLoop cap vertex_size last_vertex vertex_data bs =
      if blocksNeed vertex_size last_vertex vertex_data bs ≤ cap then
        some (blocksEmit vertex_size last_vertex vertex_data bs)
      else none := by
  induction bs with
  | nil =>
    intro cap lv d
    simp [encodeBlocksLoop, blocksNeed, blocksEmit]
  | cons b rest ih =>
    intro cap lv d
    have hble : (blockEmit d b vertex_size lv).length ≤ blockNeed d b vertex_size lv :=
      channelsEmit_le_need d b vertex_size lv (List.range vertex_size)
    simp only [encodeBlocksLoop, encodeVertexBlock_eq]
    by_cases h1 : blockNeed d b vertex_size lv ≤ cap
    · rw [if_pos h1]
      dsimp only
      rw [ih (cap - (blockEmit d b vertex_size lv).length) (lastRecord d b vertex_size)
        (d.drop (b * vertex_size))]
      by_cases h2 : blocksNeed vertex_size (lastRecord d b vertex_size)
          (d.drop (b * vertex_size)) rest ≤ cap - (blockEmit d b vertex_size lv).length
      · rw [if_pos h2, if_pos (by simp only [blocksNeed]; omega)]
        rfl
      · rw [if_neg h2, if_neg (by simp only [blocksNeed]; omega)]
    · rw [if_neg h1, if_neg (by simp only [blocksNeed]; omega)]

def tailSize (vertex_size : Nat) : Nat :=
  if vertex_size < kTailMaxSize then kTailMaxSize else vertex_size

def v1Emit (vertices : List Nat) (vertex_count vertex_size : Nat) : List Nat :=
  ((kVertexHeader ||| gEncodeVertexVersion) % 256) ::
    blocksEmit vertex_size (firstVertex vertices vertex_count vertex_size) vertices
      (blockSizes (getVertexBlockSize vertex_size) vertex_count) ++
    (if vertex_size < kTailMaxSize then List.replicate (kTailMaxSize - vertex_size) 0 else []) ++
    firstVertex vertices vertex_count vertex_size

theorem firstVertex_length (vertices : List Nat) (vertex_count vertex_size : Nat) :
    (firstVertex vertices vertex_count vertex_size).length = vertex_size := by
  unfold firstVertex
  split <;> simp

theorem tailSize_ge (vertex_size : Nat) :
    kTailMaxSize ≤ tailSize vertex_size ∧ vertex_size ≤ tailSize vertex_size := by
  unfold tailSize kTailMaxSize
  split <;> omega

theorem v1Emit_length (vertices : List Nat) (vertex_count vertex_size : Nat) :
    (v1Emit vertices vertex_count vertex_size).length =
      1 + (blocksEmit vertex_size (firstVertex vertices vertex_count vertex_size) vertices
        (blockSizes (getVertexBlockSize vertex_size) vertex_count)).length +
      tailSize vertex_size := by
  simp only [v1Emit, tailSize, List.length_cons, List.length_append,
    firstVertex_length]
  split <;> simp_all [List.length_replicate, kTailMaxSize] <;> omega

theorem encodeV1Bytes_eq (bs : Nat) (vertices : List Nat) (vertex_count vertex_size : Nat) :
    encodeV1Bytes bs vertices vertex_count vertex_size =
      if (v1Emit vertices vertex_count vertex_size).length ≤ bs then
        some (v1Emit vertices vertex_count vertex_size)
      else none := by
  have hT := tailSize_ge vertex_size
  have hlen := v1Emit_length vertices vertex_count vertex_size
  have hEN := blocksEmit_le_need vertex_size
    (blockSizes (getVertexBlockSize vertex_size) vertex_count)
    (firstVertex vertices vertex_count vertex_size) vertices
  have hNE := blocksNeed_le_emit_add vertex_size
    (blockSizes (getVertexBlockSize vertex_size) vertex_count)
    (firstVertex vertices vertex_count vertex_size) vertices
  have hK : kTailMaxSize = 32 := rfl
  have hK2 : kByteGroupDecodeLimit = 24 := rfl
  simp only [encodeV1Bytes, encodeBlocksLoop_eq]
  by_cases hinit : bs < 1 + vertex_size
  · rw [if_pos hinit, if_neg (by omega)]
  · rw [if_neg hinit]
    by_cases hN : blocksNeed vertex_size (firstVertex vertices vertex_count vertex_size) vertices
        (blockSizes (getVertexBlockSize vertex_size) vertex_count) ≤ bs - 1
    · rw [if_pos hN]
      dsimp only
      rw [show (if vertex_size < kTailMaxSize then kTailMaxSize else vertex_size) =
        tailSize vertex_size from rfl]
      by_cases htail : bs - 1 - (blocksEmit vertex_size
          (firstVertex vertices vertex_count vertex_size) vertices
          (blockSizes (getVertexBlockSize vertex_size) vertex_count)).length <
          tailSize vertex_size
      · have hgoal : ¬ ((v1Emit vertices vertex_count vertex_size).length ≤ bs) := by
          omega
        rw [if_pos htail, if_neg hgoal]
      · have hgoal : (v1Emit vertices vertex_count vertex_size).length ≤ bs := by
          omega
        rw [if_neg htail, if_pos hgoal]
        rfl
    · have hgoal : ¬ ((v1Emit vertices vertex_count vertex_size).length ≤ bs) := by
        omega
      rw [if_neg hN, if_neg hgoal]

theorem encodeV1_eq (bs : Nat) (vertices : List Nat) (vertex_count vertex_size : Nat) :
    encodeV1 bs vertices vertex_count vertex_size =
      if (v1Emit vertices vertex_count vertex_size).length ≤ bs then
        (v1Emit vertices vertex_count vertex_size).length
      else 0 := by
  simp only [encodeV1, encodeV1Bytes_eq]
  by_cases h : (v1Emit vertices vertex_count vertex_size).length ≤ bs <;> simp [h]

/-! ## Block partitioning lemmas -/

theorem blockSizesGo_eq (vbs : Nat) (h : 0 < vbs) :
    ∀ fuel n, n ≤ fuel →
    blockSizesGo vbs fuel n =
      List.replicate (n / vbs) vbs ++ (if n % vbs = 0 then [] else [n % vbs]) := by
  intro fuel
  induction fuel with
  | zero =>
    intro n hn
    have hn0 : n = 0 := by omega
    subst hn0
    simp [blockSizesGo, Nat.zero_div, Nat.zero_mod]
  | succ fuel ih =>
    intro n hn
    match n with
    | 0 => simp [blockSizesGo, Nat.zero_div, Nat.zero_mod]
    | m + 1 =>
      rw [blockSizesGo, if_neg (by omega)]
      dsimp only
      rw [ih ((m + 1) - min vbs (m + 1)) (by omega)]
      by_cases hc : vbs ≤ m + 1
      · rw [Nat.min_eq_left hc]
        have hd := Nat.div_add_mod (m + 1) vbs
        have hq1 : 1 ≤ (m + 1) / vbs := by
          rw [Nat.le_div_iff_mul_le h]
          omega
        have hr : (m + 1) % vbs < vbs := Nat.mod_lt _ h
        have hsub : m + 1 - vbs = vbs * ((m + 1) / vbs - 1) + (m + 1) % vbs := by
          rw [show (m + 1) / vbs = ((m + 1) / vbs - 1) + 1 from by omega] at hd
          rw [Nat.mul_add, Nat.mul_one] at hd
          omega
        rw [hsub, Nat.mul_add_div h, Nat.div_eq_of_lt hr, Nat.add_zero,
          Nat.mul_add_mod, Nat.mod_eq_of_lt hr]
        rw [show (m + 1) / vbs = ((m + 1) / vbs - 1) + 1 from by omega, List.replicate_succ]
        rfl
      · have hlt : m + 1 < vbs := by omega
        rw [min_eq_right (show m + 1 ≤ vbs by omega), Nat.sub_self]
        rw [Nat.div_eq_of_lt hlt, Nat.mod_eq_of_lt hlt, Nat.zero_div, Nat.zero_mod]
        rw [if_pos rfl, if_neg (by omega)]
        simp [blockSizesGo]

theorem blockSizes_eq (vbs n : Nat) (h : 0 < vbs) :
    blockSizes vbs n =
      List.replicate (n / vbs) vbs ++ (if n % vbs = 0 then [] else [n % vbs]) :=
  blockSizesGo_eq vbs h n n (Nat.le_refl n)

theorem getVertexBlockSize_eq (vertex_size : Nat) :
    getVertexBlockSize vertex_size = min 256 (16 * (8192 / vertex_size / 16)) := by
  simp only [getVertexBlockSize, kVertexBlockSizeBytes, kByteGroupSize, kVertexBlockMaxSize]
  split <;> omega

theorem getVertexBlockSize_pos (vertex_size : Nat) (h1 : 0 < vertex_size)
    (h2 : vertex_size ≤ 256) : 32 ≤ getVertexBlockSize vertex_size := by
  have hdiv : 8192 / 256 ≤ 8192 / vertex_size := Nat.div_le_div_left h2 h1
  rw [getVertexBlockSize_eq]
  omega

/-! ## Claim C8: zigzag round trip -/

/-- Modelled from the spec: the external decoder's inverse of the zigzag
transform, `(v >> 1) XOR -(v & 1)` on bytes, with the two's-complement
negation truncated to 8 bits (`-1` is the byte 255, `-0` is 0). -/
def unzigzag8 (v : Nat) : Nat :=
  ((v % 256) >>> 1) ^^^ (if v % 2 = 1 then 255 else 0)

set_option maxRecDepth 4096 in
/-- C8: for every byte `d`, the inverse map `(v >> 1) XOR -(v & 1)` applied to
`zigzag8 d` recovers `d`, and `zigzag8` applied to `unzigzag8 d` also gives
back `d`, so `zigzag8` is a bijection on bytes. -/
theorem C8_zigzag_roundtrip :
    ∀ d : Fin 256, unzigzag8 (zigzag8 d.val) = d.val ∧ zigzag8 (unzigzag8 d.val) = d.val := by
  decide

/-! ## Claim C5: worst-case group size versus the decode limit -/

/-- C5 counterexample: the claim asserts that for every width `b` in
`{1,2,4,8}` a successful group encoding advances the cursor by at most
`16 + 16/(8/b)` and that this bound is at most `kByteGroupDecodeLimit = 24`.
At `b = 8` the bound evaluates to `16 + 16/1 = 32 > 24`, so the claimed
inequality chain is false (the all-zero group is a concrete input on which
width 8 succeeds). -/
theorem C5_counterexample :
    ¬ (∀ b ∈ ([1, 2, 4, 8] : List Nat),
        ((encodeBytesGroupTry (List.replicate 16 0) b).getD []).length ≤ 16 + 16 / (8 / b) ∧
        16 + 16 / (8 / b) ≤ kByteGroupDecodeLimit) := by
  decide

/-- C5 (amended): every successful group encoding advances the cursor by at
most `kByteGroupDecodeLimit = 24` bytes; for widths 1, 2, 4 the advance is
bounded by `16 + 16/(8/b) ≤ 24`, while width 8 advances exactly 16 bytes
(its formula bound `16 + 16/(8/8) = 32` exceeds 24, the actual advance does
not).  Consequently the group-sequence encoder's check that at least 24 bytes
remain before each group keeps every successful `encodeBytes` run within its
capacity. -/
theorem C5_amended (g : List Nat) (b : Nat) (hb : b = 1 ∨ b = 2 ∨ b = 4 ∨ b = 8)
    (out : List Nat) (h : encodeBytesGroupTry g b = some out) :
    out.length ≤ kByteGroupDecodeLimit ∧
    (b ≠ 8 → out.length ≤ 16 + 16 / (8 / b) ∧ 16 + 16 / (8 / b) ≤ kByteGroupDecodeLimit) ∧
    (b = 8 → out.length = 16) ∧
    (∀ cap buffer out2, encodeBytes cap buffer = some out2 → out2.length ≤ cap) := by
  have hbytes : ∀ cap buffer out2, encodeBytes cap buffer = some out2 → out2.length ≤ cap := by
    intro cap buffer out2 h2
    rw [encodeBytes_eq] at h2
    by_cases hc : bytesNeed buffer ≤ cap
    · rw [if_pos hc] at h2
      have hout : out2 = bytesEmit buffer := by
        injection h2 with h3
        exact h3.symm
      rw [hout]
      exact Nat.le_trans (bytesEmit_le_need buffer) hc
    · rw [if_neg hc] at h2
      exact absurd h2 (by simp)
  rcases hb with hb | hb | hb | hb <;> subst hb
  · rw [try1_eq] at h
    by_cases hz : encodeBytesGroupZero g
    · rw [if_pos hz] at h
      have hout : out = [] := by
        injection h with h3
        exact h3.symm
      subst hout
      refine ⟨by simp [kByteGroupDecodeLimit], ?_, by simp, hbytes⟩
      intro _
      simp [kByteGroupDecodeLimit]
    · rw [if_neg hz] at h
      exact absurd h (by simp)
  · rw [try2_eq] at h
    have hout : out.length ≤ 20 := by
      have := try2_getD_length_le g
      rw [try2_eq] at this
      simp only [Option.getD_some] at this
      injection h with h3
      rw [h3] at this
      exact this
    refine ⟨by simp only [kByteGroupDecodeLimit]; omega, ?_, by simp, hbytes⟩
    intro _
    refine ⟨by omega, by simp [kByteGroupDecodeLimit]⟩
  · rw [try4_eq] at h
    have hout : out.length ≤ 24 := by
      have := try4_getD_length_le g
      rw [try4_eq] at this
      simp only [Option.getD_some] at this
      injection h with h3
      rw [h3] at this
      exact this
    refine ⟨by simp only [kByteGroupDecodeLimit]; omega, ?_, by simp, hbytes⟩
    intro _
    refine ⟨by omega, by simp [kByteGroupDecodeLimit]⟩
  · rw [try8_eq] at h
    have hout : out.length = 16 := by
      injection h with h3
      rw [← h3]
      simp
    exact ⟨by simp [kByteGroupDecodeLimit, hout], by simp, fun _ => hout, hbytes⟩

/-- C5 witness: the amended theorem applied at width 2 on the all-zero group,
whose encoding is the four packed bytes `[0,0,0,0]`. -/
theorem C5_witness :
    ((2 : Nat) = 1 ∨ (2 : Nat) = 2 ∨ (2 : Nat) = 4 ∨ (2 : Nat) = 8) ∧
    encodeBytesGroupTry (List.replicate 16 0) 2 = some [0, 0, 0, 0] ∧
    ([0, 0, 0, 0] : List Nat).length ≤ kByteGroupDecodeLimit := by
  refine ⟨by decide, by decide, ?_⟩
  exact (C5_amended (List.replicate 16 0) 2 (by decide) [0, 0, 0, 0] (by decide)).1

/-! ## Claim C9: capacity checking -/

/-- C9 counterexample: `encodeNDZ` never consults `buffer_size`.  With a
single stride-4 record `[1,0,0,0]` and destination capacity 0 it stores two
32-bit words (8 bytes) and returns 8, a non-failure value, having written past
`buffer + buffer_size`; so it is false that every encoding component checks
the remaining capacity before writing and signals failure instead of writing
beyond the bound. -/
theorem C9_counterexample :
    ¬ (4 * (encodeNDZ 0 [1, 0, 0, 0] 1 4).2.length ≤ 0) ∧
    (encodeNDZ 0 [1, 0, 0, 0] 1 4).1 = 8 := by
  decide

/-- C9 (amended): the primary codec's components do check the remaining
capacity before writing — a successful `encodeBytes` or `encodeV1Bytes`
stays within the supplied capacity, and `encodeV1` reports failure as 0 —
but the bit-plane transposition encoder `encodeNDZ` ignores its
`buffer_size` parameter entirely (its output is identical for every
capacity) and can return a byte count exceeding the capacity with no
failure indication. -/
theorem C9_amended :
    (∀ cap buffer out, encodeBytes cap buffer = some out → out.length ≤ cap) ∧
    (∀ bs vertices vertex_count vertex_size out,
      encodeV1Bytes bs vertices vertex_count vertex_size = some out → out.length ≤ bs) ∧
    (∀ bs bs2 vertices vertex_count vertex_size,
      encodeNDZ bs vertices vertex_count vertex_size =
        encodeNDZ bs2 vertices vertex_count vertex_size) ∧
    0 < (encodeNDZ 0 [1, 0, 0, 0] 1 4).1 := by
  refine ⟨?_, ?_, fun bs bs2 vertices c vs => rfl, by decide⟩
  · intro cap buffer out h2
    rw [encodeBytes_eq] at h2
    by_cases hc : bytesNeed buffer ≤ cap
    · rw [if_pos hc] at h2
      have hout : out = bytesEmit buffer := by
        injection h2 with h3
        exact h3.symm
      rw [hout]
      exact Nat.le_trans (bytesEmit_le_need buffer) hc
    · rw [if_neg hc] at h2
      exact absurd h2 (by simp)
  · intro bs vertices c vs out h2
    rw [encodeV1Bytes_eq] at h2
    by_cases hc : (v1Emit vertices c vs).length ≤ bs
    · rw [if_pos hc] at h2
      have hout : out = v1Emit vertices c vs := by
        injection h2 with h3
        exact h3.symm
      rw [hout]
      exact hc
    · rw [if_neg hc] at h2
      exact absurd h2 (by simp)

/-- C9 witness: the amended theorem's `encodeV1Bytes` bound applied to the
concrete empty input at stride 4 and capacity 100. -/
theorem C9_witness :
    encodeV1Bytes 100 [] 0 4 =
      some [161, 0, 0, 0, 0, 0, 0, 0, 0, 0, 0, 0, 0, 0, 0, 0, 0,
        0, 0, 0, 0, 0, 0, 0, 0, 0, 0, 0, 0, 0, 0, 0, 0] ∧
    ([161, 0, 0, 0, 0, 0, 0, 0, 0, 0, 0, 0, 0, 0, 0, 0, 0,
        0, 0, 0, 0, 0, 0, 0, 0, 0, 0, 0, 0, 0, 0, 0, 0] : List Nat).length ≤ 100 := by
  refine ⟨by decide, ?_⟩
  exact C9_amended.2.1 100 [] 0 4 _ (by decide)

/-! ## Claim C6: monotone capacity behaviour -/

/-- C6: for every valid input there is an exact byte requirement `R` with a
byte string of that length such that every capacity at least `R` makes the
encoder succeed with exactly those bytes and return `R`, while every capacity
below `R` makes `encodeV1Bytes` fail and `encodeV1` return 0. -/
theorem C6_capacity (vertices : List Nat) (vertex_count vertex_size : Nat)
    (h1 : 0 < vertex_size) (h2 : vertex_size ≤ 256) (h3 : vertex_size % 4 = 0) :
    ∃ (R : Nat) (bytes : List Nat), bytes.length = R ∧
      (∀ bs, R ≤ bs →
        encodeV1Bytes bs vertices vertex_count vertex_size = some bytes ∧
        encodeV1 bs vertices vertex_count vertex_size = R) ∧
      (∀ bs, bs < R →
        encodeV1Bytes bs vertices vertex_count vertex_size = none ∧
        encodeV1 bs vertices vertex_count vertex_size = 0) := by
  refine ⟨(v1Emit vertices vertex_count vertex_size).length,
    v1Emit vertices vertex_count vertex_size, rfl, ?_, ?_⟩
  · intro bs hbs
    rw [encodeV1Bytes_eq, if_pos hbs, encodeV1_eq, if_pos hbs]
    exact ⟨rfl, rfl⟩
  · intro bs hbs
    rw [encodeV1Bytes_eq, if_neg (by omega), encodeV1_eq, if_neg (by omega)]
    exact ⟨rfl, rfl⟩

/-- C6 witness: the capacity dichotomy at the concrete input of one stride-4
record `[1,2,3,4]`. -/
theorem C6_witness :
    ∃ (R : Nat) (bytes : List Nat), bytes.length = R ∧
      (∀ bs, R ≤ bs →
        encodeV1Bytes bs [1, 2, 3, 4] 1 4 = some bytes ∧
        encodeV1 bs [1, 2, 3, 4] 1 4 = R) ∧
      (∀ bs, bs < R →
        encodeV1Bytes bs [1, 2, 3, 4] 1 4 = none ∧
        encodeV1 bs [1, 2, 3, 4] 1 4 = 0) :=
  C6_capacity [1, 2, 3, 4] 1 4 (by decide) (by decide) (by decide)

/-! ## Claim C10: empty input -/

theorem v1Emit_empty (vertices : List Nat) (vertex_size : Nat) :
    v1Emit vertices 0 vertex_size = 0xa1 :: List.replicate (max vertex_size kTailMaxSize) 0 := by
  unfold v1Emit firstVertex
  rw [if_neg (by omega)]
  rw [show blockSizes (getVertexBlockSize vertex_size) 0 = [] from rfl]
  simp only [blocksEmit, List.nil_append]
  by_cases hvs : vertex_size < kTailMaxSize
  · rw [if_pos hvs, List.append_assoc, ← List.replicate_add]
    have heq : kTailMaxSize - vertex_size + vertex_size = max vertex_size kTailMaxSize := by
      simp only [kTailMaxSize] at *
      omega
    rw [heq, List.singleton_append]
    rfl
  · rw [if_neg hvs, List.append_nil, List.singleton_append]
    have heq : max vertex_size kTailMaxSize = vertex_size := by
      simp only [kTailMaxSize] at *
      omega
    rw [heq]
    rfl

/-- C10: with `vertex_count = 0`, a valid `vertex_size` and capacity at least
`1 + max(vertex_size, 32)`, the encoder succeeds, returns exactly
`1 + max(vertex_size, 32)`, and the stream is the format byte `0xA1` followed
only by the tail, every byte of which is zero (the first-record capture is
skipped and the zero-initialised first-vertex buffer is emitted). -/
theorem C10_empty (bs : Nat) (vertices : List Nat) (vertex_size : Nat)
    (h1 : 0 < vertex_size) (h2 : vertex_size ≤ 256) (h3 : vertex_size % 4 = 0)
    (hcap : 1 + max vertex_size kTailMaxSize ≤ bs) :
    encodeV1Bytes bs vertices 0 vertex_size =
      some (0xa1 :: List.replicate (max vertex_size kTailMaxSize) 0) ∧
    encodeV1 bs vertices 0 vertex_size = 1 + max vertex_size kTailMaxSize := by
  have hemit := v1Emit_empty vertices vertex_size
  have hlen : (v1Emit vertices 0 vertex_size).length = 1 + max vertex_size kTailMaxSize := by
    rw [hemit]
    simp only [List.length_cons, List.length_replicate]
    omega
  constructor
  · rw [encodeV1Bytes_eq, if_pos (by omega), hemit]
  · rw [encodeV1_eq, if_pos (by omega), hlen]

/-- C10 witness: the empty-input theorem at stride 4 and capacity 33. -/
theorem C10_witness :
    encodeV1Bytes 33 [] 0 4 = some (0xa1 :: List.replicate (max 4 kTailMaxSize) 0) ∧
    encodeV1 33 [] 0 4 = 1 + max 4 kTailMaxSize :=
  C10_empty 33 [] 4 (by decide) (by decide) (by decide) (by decide)

/-! ## Claim C1: stream framing -/

theorem tailSize_eq_max (vertex_size : Nat) :
    tailSize vertex_size = max vertex_size kTailMaxSize := by
  simp only [tailSize, kTailMaxSize]
  split <;> omega

theorem tail_append_length (vertices : List Nat) (vertex_count vertex_size : Nat) :
    ((if vertex_size < kTailMaxSize then List.replicate (kTailMaxSize - vertex_size) 0
      else []) ++ firstVertex vertices vertex_count vertex_size).length =
      max vertex_size kTailMaxSize := by
  simp only [List.length_append, firstVertex_length]
  by_cases hvs : vertex_size < kTailMaxSize
  · rw [if_pos hvs]
    simp only [List.length_replicate, kTailMaxSize] at *
    omega
  · rw [if_neg hvs]
    simp only [List.length_nil, kTailMaxSize] at *
    omega

/-- C1: a successful top-level encode returns the number of bytes written and
these bytes are exactly: the format byte `0xA0 | 1 = 0xA1`, then the block
encodings of consecutive blocks of
`block_vertices = min(256, 16 * floor(floor(8192 / vertex_size) / 16))`
records each with the last block holding the remainder, then a tail of
`max(vertex_size, 32)` bytes made of `32 - vertex_size` zero bytes (only when
`vertex_size < 32`) followed by the first record's raw bytes. -/
theorem C1_framing (bs : Nat) (vertices : List Nat) (vertex_count vertex_size : Nat)
    (out : List Nat)
    (h1 : 0 < vertex_size) (h2 : vertex_size ≤ 256) (h3 : vertex_size % 4 = 0)
    (h : encodeV1Bytes bs vertices vertex_count vertex_size = some out) :
    encodeV1 bs vertices vertex_count vertex_size = out.length ∧
    (kVertexHeader ||| gEncodeVertexVersion) % 256 = 0xa1 ∧
    getVertexBlockSize vertex_size = min 256 (16 * (8192 / vertex_size / 16)) ∧
    blockSizes (getVertexBlockSize vertex_size) vertex_count =
      List.replicate (vertex_count / getVertexBlockSize vertex_size)
        (getVertexBlockSize vertex_size) ++
      (if vertex_count % getVertexBlockSize vertex_size = 0 then []
       else [vertex_count % getVertexBlockSize vertex_size]) ∧
    out = ((kVertexHeader ||| gEncodeVertexVersion) % 256) ::
      blocksEmit vertex_size (firstVertex vertices vertex_count vertex_size) vertices
        (blockSizes (getVertexBlockSize vertex_size) vertex_count) ++
      (if vertex_size < kTailMaxSize then List.replicate (kTailMaxSize - vertex_size) 0
       else []) ++
      firstVertex vertices vertex_count vertex_size ∧
    encodeBlocksLoop (bs - 1) vertex_size (firstVertex vertices vertex_count vertex_size)
        vertices (blockSizes (getVertexBlockSize vertex_size) vertex_count) =
      some (blocksEmit vertex_size (firstVertex vertices vertex_count vertex_size) vertices
        (blockSizes (getVertexBlockSize vertex_size) vertex_count)) ∧
    ((if vertex_size < kTailMaxSize then List.replicate (kTailMaxSize - vertex_size) 0
      else []) ++ firstVertex vertices vertex_count vertex_size).length =
      max vertex_size kTailMaxSize ∧
    out.length = 1 + (blocksEmit vertex_size (firstVertex vertices vertex_count vertex_size)
        vertices (blockSizes (getVertexBlockSize vertex_size) vertex_count)).length +
      max vertex_size kTailMaxSize := by
  have hvbs := getVertexBlockSize_pos vertex_size h1 h2
  have hlen := v1Emit_length vertices vertex_count vertex_size
  have hNE := blocksNeed_le_emit_add vertex_size
    (blockSizes (getVertexBlockSize vertex_size) vertex_count)
    (firstVertex vertices vertex_count vertex_size) vertices
  have hT := tailSize_ge vertex_size
  rw [encodeV1Bytes_eq] at h
  by_cases hc : (v1Emit vertices vertex_count vertex_size).length ≤ bs
  · rw [if_pos hc] at h
    have hout : out = v1Emit vertices vertex_count vertex_size := by
      injection h with h4
      exact h4.symm
    subst hout
    refine ⟨?_, rfl, getVertexBlockSize_eq vertex_size,
      blockSizes_eq _ _ (by omega), rfl, ?_, tail_append_length vertices vertex_count vertex_size, ?_⟩
    · rw [encodeV1_eq, if_pos hc]
    · rw [encodeBlocksLoop_eq, if_pos (by simp only [kByteGroupDecodeLimit, kTailMaxSize] at *; omega)]
    · rw [hlen, tailSize_eq_max]
  · rw [if_neg hc] at h
    exact absurd h (by simp)

/-- C1 witness: the framing theorem at one stride-4 record `[1,2,3,4]` with
capacity 100, where the emitted stream is 37 bytes. -/
theorem C1_witness :
    encodeV1Bytes 100 [1, 2, 3, 4] 1 4 =
      some [161, 0, 0, 0, 0, 0, 0, 0, 0, 0, 0, 0, 0, 0, 0, 0, 0, 0, 0, 0, 0, 0,
        0, 0, 0, 0, 0, 0, 0, 0, 0, 0, 0, 1, 2, 3, 4] ∧
    encodeV1 100 [1, 2, 3, 4] 1 4 =
      ([161, 0, 0, 0, 0, 0, 0, 0, 0, 0, 0, 0, 0, 0, 0, 0, 0, 0, 0, 0, 0, 0,
        0, 0, 0, 0, 0, 0, 0, 0, 0, 0, 0, 1, 2, 3, 4] : List Nat).length := by
  refine ⟨by decide, ?_⟩
  exact (C1_framing 100 [1, 2, 3, 4] 1 4 _ (by decide) (by decide) (by decide) (by decide)).1

/-! ## Claim C7: width-1 minimality -/

theorem groupZero_iff (g : List Nat) (hg : g.length = 16) :
    encodeBytesGroupZero g = true ↔ ∀ v ∈ g, v = 0 := by
  unfold encodeBytesGroupZero kByteGroupSize
  rw [List.all_eq_true]
  constructor
  · intro hall v hv
    obtain ⟨i, hi, rfl⟩ := List.mem_iff_getElem.mp hv
    have h1 := hall i (by rw [List.mem_range]; omega)
    rw [beq_iff_eq, List.getD_eq_getElem g 0 hi] at h1
    exact h1
  · intro hz i hi
    rw [List.mem_range] at hi
    rw [beq_iff_eq, List.getD_eq_getElem g 0 (by omega)]
    exact hz _ (List.getElem_mem (by omega))

/-- C7: at width 1 the group packer succeeds (emitting zero payload bytes)
exactly on the all-zero 16-byte group and fails otherwise; consequently the
group-sequence encoder selects width 1 precisely for all-zero groups (with
empty payload), never selects width 1 for a group with a nonzero byte, and
whichever width it selects is always applicable to the group. -/
theorem C7_width1 (g : List Nat) (hg : g.length = 16) :
    (encodeBytesGroupTry g 1 = some [] ↔ ∀ v ∈ g, v = 0) ∧
    (encodeBytesGroupTry g 1 = none ↔ ¬ (∀ v ∈ g, v = 0)) ∧
    ((∀ v ∈ g, v = 0) → bestBits g = 1 ∧ groupEmit g = []) ∧
    (¬ (∀ v ∈ g, v = 0) → bestBits g ≠ 1) ∧
    encodeBytesGroupTry g (bestBits g) = some (groupEmit g) := by
  have hiff := groupZero_iff g hg
  refine ⟨?_, ?_, ?_, ?_, (groupEmit_spec g).1⟩
  · rw [try1_eq]
    constructor
    · intro h1
      by_cases hz : encodeBytesGroupZero g
      · exact hiff.mp hz
      · rw [if_neg hz] at h1
        exact absurd h1 (by simp)
    · intro h1
      rw [if_pos (hiff.mpr h1)]
  · rw [try1_eq]
    constructor
    · intro h1 hall
      rw [if_pos (hiff.mpr hall)] at h1
      exact absurd h1 (by simp)
    · intro h1
      by_cases hz : encodeBytesGroupZero g
      · exact absurd (hiff.mp hz) h1
      · rw [if_neg hz]
  · intro hall
    have hz := hiff.mpr hall
    have hb := bestBits_zero g hz
    refine ⟨hb, ?_⟩
    rw [groupEmit, hb, try1_eq, if_pos hz]
    rfl
  · intro h1
    have hz : encodeBytesGroupZero g = false := by
      by_cases hz : encodeBytesGroupZero g
      · exact absurd (hiff.mp hz) h1
      · simpa using hz
    have := bestBits_nonzero g hz
    omega

/-- C7 witness: the all-zero group selects width 1 with empty payload, and a
group with one nonzero byte does not. -/
theorem C7_witness :
    (encodeBytesGroupTry (List.replicate 16 0) 1 = some [] ↔
      ∀ v ∈ (List.replicate 16 (0 : Nat)), v = 0) ∧
    ((∀ v ∈ (List.replicate 16 (0 : Nat)), v = 0) →
      bestBits (List.replicate 16 0) = 1 ∧ groupEmit (List.replicate 16 0) = []) := by
  have h := C7_width1 (List.replicate 16 0) (by decide)
  exact ⟨h.1, h.2.2.1⟩

/-! ## Claim C2: group-sequence encoder structure -/

def groupTrySize (g : List Nat) (b : Nat) : Nat := ((encodeBytesGroupTry g b).getD []).length

theorem bestBits_nonzero_eq (g : List Nat) (h : encodeBytesGroupZero g = false) :
    bestBits g =
      if groupTrySize g 2 < 16 then (if groupTrySize g 4 < groupTrySize g 2 then 4 else 2)
      else (if groupTrySize g 4 < 16 then 4 else 8) := by
  simp only [bestBits, groupTrySize, List.foldl_cons, List.foldl_nil, try1_eq, try2_eq,
    try4_eq, h, try8_getD_length, Option.getD_some]
  simp only [Bool.false_eq_true, if_false]
  split <;> split <;> simp_all

/-- Selection property stated the way the specification words it: the width
is 8 (size 16) unless one of the widths 1, 2, 4 — tried in that order —
encodes strictly smaller, and a tie is resolved in favour of the
earlier-tried candidate (8 beats any equal-sized later candidate; among
1, 2, 4 the earlier-tried, i.e. numerically smaller, width wins a tie). -/
def selectionSpec (g : List Nat) : Prop :=
  (bestBits g = 8 ∧ groupTrySize g 8 = 16 ∧
    (∀ b, (b = 1 ∨ b = 2 ∨ b = 4) → (encodeBytesGroupTry g b).isSome = true →
      16 ≤ groupTrySize g b)) ∨
  ((bestBits g = 1 ∨ bestBits g = 2 ∨ bestBits g = 4) ∧
    (encodeBytesGroupTry g (bestBits g)).isSome = true ∧
    groupTrySize g (bestBits g) < 16 ∧
    (∀ b, (b = 1 ∨ b = 2 ∨ b = 4) → (encodeBytesGroupTry g b).isSome = true →
      groupTrySize g (bestBits g) ≤ groupTrySize g b ∧
      (b < bestBits g → groupTrySize g (bestBits g) < groupTrySize g b)))

theorem bestBits_selection (g : List Nat) : selectionSpec g := by
  have hs2 : groupTrySize g 2 =
      4 + (((List.range 16).map (fun i => g.getD i 0)).filter (fun v => 3 ≤ v)).length :=
    try2_getD_length g
  have hs4 : groupTrySize g 4 =
      8 + (((List.range 16).map (fun i => g.getD i 0)).filter (fun v => 15 ≤ v)).length :=
    try4_getD_length g
  have hs8 : groupTrySize g 8 = 16 := try8_getD_length g
  have hsome2 : (encodeBytesGroupTry g 2).isSome = true := by rw [try2_eq]; rfl
  have hsome4 : (encodeBytesGroupTry g 4).isSome = true := by rw [try4_eq]; rfl
  by_cases hz : encodeBytesGroupZero g
  · have hb := bestBits_zero g hz
    have hsome1 : encodeBytesGroupTry g 1 = some [] := by rw [try1_eq, if_pos hz]
    have hs1 : groupTrySize g 1 = 0 := by
      unfold groupTrySize
      rw [hsome1]
      rfl
    refine Or.inr ⟨Or.inl hb, ?_, ?_, ?_⟩
    · rw [hb, hsome1]
      rfl
    · rw [hb, hs1]
      omega
    · intro b hbcase hbsome
      rw [hb, hs1]
      rcases hbcase with rfl | rfl | rfl <;> exact ⟨by omega, by omega⟩
  · have hz' : encodeBytesGroupZero g = false := by simpa using hz
    have hnone1 : encodeBytesGroupTry g 1 = none := by rw [try1_eq, if_neg hz]
    have hb := bestBits_nonzero_eq g hz'
    by_cases h2 : groupTrySize g 2 < 16
    · by_cases h4 : groupTrySize g 4 < groupTrySize g 2
      · rw [if_pos h2, if_pos h4] at hb
        refine Or.inr ⟨by omega, by rw [hb]; exact hsome4, by rw [hb]; omega, ?_⟩
        intro b hbcase hbsome
        rw [hb]
        rcases hbcase with rfl | rfl | rfl
        · rw [hnone1] at hbsome
          exact absurd hbsome (by simp)
        · exact ⟨by omega, by omega⟩
        · exact ⟨by omega, by omega⟩
      · rw [if_pos h2, if_neg h4] at hb
        refine Or.inr ⟨by omega, by rw [hb]; exact hsome2, by rw [hb]; omega, ?_⟩
        intro b hbcase hbsome
        rw [hb]
        rcases hbcase with rfl | rfl | rfl
        · rw [hnone1] at hbsome
          exact absurd hbsome (by simp)
        · exact ⟨by omega, by omega⟩
        · exact ⟨by omega, by omega⟩
    · by_cases h4 : groupTrySize g 4 < 16
      · rw [if_neg h2, if_pos h4] at hb
        refine Or.inr ⟨by omega, by rw [hb]; exact hsome4, by rw [hb]; omega, ?_⟩
        intro b hbcase hbsome
        rw [hb]
        rcases hbcase with rfl | rfl | rfl
        · rw [hnone1] at hbsome
          exact absurd hbsome (by simp)
        · exact ⟨by omega, by omega⟩
        · exact ⟨by omega, by omega⟩
      · rw [if_neg h2, if_neg h4] at hb
        refine Or.inl ⟨hb, hs8, ?_⟩
        intro b hbcase hbsome
        rcases hbcase with rfl | rfl | rfl
        · rw [hnone1] at hbsome
          exact absurd hbsome (by simp)
        · omega
        · omega

theorem getD_lt_four (codes : List Nat) (hc : ∀ c ∈ codes, c < 4) (i : Nat) :
    codes.getD i 0 < 4 := by
  by_cases hi : i < codes.length
  · rw [List.getD_eq_getElem codes 0 hi]
    exact hc _ (List.getElem_mem hi)
  · rw [List.getD_eq_default codes 0 (by omega)]
    omega

theorem headerBytes_byte (codes : List Nat) (header_size m : Nat) (hm : m < header_size)
    (hc : ∀ c ∈ codes, c < 4) :
    (headerBytes codes header_size).getD m 0 =
      codes.getD (4 * m) 0 + 4 * codes.getD (4 * m + 1) 0 +
      16 * codes.getD (4 * m + 2) 0 + 64 * codes.getD (4 * m + 3) 0 := by
  have hc0 := getD_lt_four codes hc (4 * m)
  have hc1 := getD_lt_four codes hc (4 * m + 1)
  have hc2 := getD_lt_four codes hc (4 * m + 2)
  have hc3 := getD_lt_four codes hc (4 * m + 3)
  rw [headerBytes, getD_map_range _ 0 hm]
  rw [show List.range 4 = [0, 1, 2, 3] from rfl]
  simp only [List.foldl_cons, List.foldl_nil]
  rw [Nat.mul_zero, Nat.shiftLeft_zero, Nat.zero_or, Nat.add_zero]
  rw [lor_shiftLeft_eq_add _ _ (2 * 1) (by omega)]
  rw [lor_shiftLeft_eq_add _ _ (2 * 2) (by omega)]
  rw [lor_shiftLeft_eq_add _ _ (2 * 3) (by omega)]
  omega

theorem headerBytes_slot (codes : List Nat) (header_size j : Nat) (hj : j / 4 < header_size)
    (hc : ∀ c ∈ codes, c < 4) :
    ((headerBytes codes header_size).getD (j / 4) 0 >>> (2 * (j % 4))) % 4 = codes.getD j 0 := by
  have hc0 := getD_lt_four codes hc (4 * (j / 4))
  have hc1 := getD_lt_four codes hc (4 * (j / 4) + 1)
  have hc2 := getD_lt_four codes hc (4 * (j / 4) + 2)
  have hc3 := getD_lt_four codes hc (4 * (j / 4) + 3)
  rw [headerBytes_byte codes header_size (j / 4) hj hc, Nat.shiftRight_eq_div_pow]
  rcases (show j % 4 = 0 ∨ j % 4 = 1 ∨ j % 4 = 2 ∨ j % 4 = 3 by omega) with hr | hr | hr | hr
  · rw [hr]
    conv_rhs => rw [show j = 4 * (j / 4) from by omega]
    simp only [List.getD_eq_getElem?_getD] at hc0 hc1 hc2 hc3 ⊢
    norm_num
    omega
  · rw [hr]
    conv_rhs => rw [show j = 4 * (j / 4) + 1 from by omega]
    simp only [List.getD_eq_getElem?_getD] at hc0 hc1 hc2 hc3 ⊢
    norm_num
    omega
  · rw [hr]
    conv_rhs => rw [show j = 4 * (j / 4) + 2 from by omega]
    simp only [List.getD_eq_getElem?_getD] at hc0 hc1 hc2 hc3 ⊢
    norm_num
    omega
  · rw [hr]
    conv_rhs => rw [show j = 4 * (j / 4) + 3 from by omega]
    simp only [List.getD_eq_getElem?_getD] at hc0 hc1 hc2 hc3 ⊢
    norm_num
    omega

theorem bitslog2Of_lt (b : Nat) : bitslog2Of b < 4 := by
  unfold bitslog2Of
  split
  · omega
  split
  · omega
  split
  · omega
  · omega

/-- C2: a successful `encodeBytes` on a buffer whose length is a multiple of
16 consists of `ceil(groups/4)` header bytes followed by the group payloads;
each group's width selection obeys the spec's rule (8 unless one of 1, 2, 4 —
tried in that order — is strictly smaller, ties to the earlier-tried
candidate), and each group's 2-bit slot in the header (4 groups per byte,
first group in the low-order bits) holds the log2 code of the selected
width. -/
theorem C2_encodeBytes (cap : Nat) (buffer out : List Nat)
    (h16 : buffer.length % kByteGroupSize = 0)
    (h : encodeBytes cap buffer = some out) :
    out = headerBytes (groupsCodes (groupsOf buffer))
        ((buffer.length / kByteGroupSize + 3) / 4) ++ groupsPayload (groupsOf buffer) ∧
    (headerBytes (groupsCodes (groupsOf buffer))
        ((buffer.length / kByteGroupSize + 3) / 4)).length =
      (buffer.length / kByteGroupSize + 3) / 4 ∧
    (∀ g ∈ groupsOf buffer, selectionSpec g) ∧
    (∀ j, j < buffer.length / kByteGroupSize →
      (out.getD (j / 4) 0 >>> (2 * (j % 4))) % 4 =
        bitslog2Of (bestBits ((groupsOf buffer).getD j []))) := by
  rw [encodeBytes_eq] at h
  by_cases hc : bytesNeed buffer ≤ cap
  · rw [if_pos hc] at h
    have hout : out = bytesEmit buffer := by
      injection h with h2
      exact h2.symm
    subst hout
    refine ⟨rfl, headerBytes_length _ _, fun g _ => bestBits_selection g, ?_⟩
    intro j hj
    have hcodes_lt : ∀ c ∈ groupsCodes (groupsOf buffer), c < 4 := by
      intro c hcm
      rw [groupsCodes] at hcm
      obtain ⟨g, _, rfl⟩ := List.mem_map.mp hcm
      exact bitslog2Of_lt _
    have hhs : j / 4 < (buffer.length / kByteGroupSize + 3) / 4 := by omega
    have hglen : (groupsOf buffer).length = buffer.length / kByteGroupSize := by
      simp [groupsOf]
    rw [show bytesEmit buffer = headerBytes (groupsCodes (groupsOf buffer))
      ((buffer.length / kByteGroupSize + 3) / 4) ++ groupsPayload (groupsOf buffer) from rfl]
    rw [List.getD_append _ _ _ _ (by rw [headerBytes_length]; exact hhs)]
    rw [headerBytes_slot _ _ j hhs hcodes_lt]
    rw [groupsCodes, List.getD_eq_getElem _ _ (by rw [List.length_map]; omega),
      List.getElem_map, List.getD_eq_getElem _ _ (by omega)]
  · rw [if_neg hc] at h
    exact absurd h (by simp)

/-- C2 witness: the structure theorem at a concrete 16-byte buffer (one
group, one header byte, width 2 selected with one escape). -/
theorem C2_witness :
    ∃ out, encodeBytes 100 [0, 1, 2, 0, 1, 2, 0, 1, 2, 0, 1, 2, 0, 1, 2, 0] = some out ∧
      (∀ g ∈ groupsOf [0, 1, 2, 0, 1, 2, 0, 1, 2, 0, 1, 2, 0, 1, 2, 0], selectionSpec g) := by
  refine ⟨[1, 24, 97, 134, 24], by decide, ?_⟩
  exact (C2_encodeBytes 100 [0, 1, 2, 0, 1, 2, 0, 1, 2, 0, 1, 2, 0, 1, 2, 0]
    [1, 24, 97, 134, 24] (by decide) (by decide)).2.2.1

/-! ## Claim C3: byte-group packing for widths 2, 4, 8 -/

/-- Packing of one output byte as the specification words it: `8/b` input
values are packed most-significant-first into `b`-bit fields, every value at
least the sentinel `2^b - 1` being replaced by the sentinel. -/
def specFixedByte (g : List Nat) (b j : Nat) : Nat :=
  (List.range (8 / b)).foldl
    (fun s k => s + min (g.getD (j * (8 / b) + k) 0) (2 ^ b - 1) * 2 ^ (b * (8 / b - 1 - k))) 0

/-- Group encoding as the specification words it for `b ∈ {2,4}`:
`16/(8/b)` fixed bytes followed by one full escape byte for every input byte
whose field held the sentinel, in ascending index order. -/
def specGroupTry (g : List Nat) (b : Nat) : List Nat :=
  ((List.range (16 / (8 / b))).map (specFixedByte g b)) ++
    ((List.range 16).map (fun i => g.getD i 0)).filter (fun v => 2 ^ b - 1 ≤ v)

theorem pack_step2 (x e : Nat) (he : e < 4) :
    ((x <<< 2) % 256) ||| e = (x % 64) * 4 + e := by
  have h1 : (x <<< 2) % 256 = (x % 64) <<< 2 := by
    rw [Nat.shiftLeft_eq, Nat.shiftLeft_eq]
    omega
  rw [h1, shiftLeft_lor_eq_add _ _ 2 (by omega)]
  norm_num

theorem pack_step4 (x e : Nat) (he : e < 16) :
    ((x <<< 4) % 256) ||| e = (x % 16) * 16 + e := by
  have h1 : (x <<< 4) % 256 = (x % 16) <<< 4 := by
    rw [Nat.shiftLeft_eq, Nat.shiftLeft_eq]
    omega
  rw [h1, shiftLeft_lor_eq_add _ _ 4 (by omega)]
  norm_num

theorem encodeGroupFixedByte_eq2 (g : List Nat) (i : Nat) :
    encodeGroupFixedByte g 2 i =
      min (g.getD (i + 0) 0) 3 * 64 + min (g.getD (i + 1) 0) 3 * 16 +
        min (g.getD (i + 2) 0) 3 * 4 + min (g.getD (i + 3) 0) 3 := by
  have hmin : ∀ v : Nat, (if 2 ^ 2 - 1 ≤ v then 2 ^ 2 - 1 else v) = min v 3 := by
    intro v
    norm_num
    split
    · rw [min_eq_right (by omega)]
    · rw [min_eq_left (by omega)]
  have m0 : min (g.getD (i + 0) 0) 3 ≤ 3 := Nat.min_le_right _ _
  have m1 : min (g.getD (i + 1) 0) 3 ≤ 3 := Nat.min_le_right _ _
  have m2 : min (g.getD (i + 2) 0) 3 ≤ 3 := Nat.min_le_right _ _
  have m3 : min (g.getD (i + 3) 0) 3 ≤ 3 := Nat.min_le_right _ _
  unfold encodeGroupFixedByte
  rw [show (8 : Nat) / 2 = 4 from rfl, show List.range 4 = [0, 1, 2, 3] from rfl]
  simp only [List.foldl_cons, List.foldl_nil]
  simp only [hmin]
  rw [pack_step2 _ _ (show min (g.getD (i + 0) 0) 3 < 4 by omega)]
  rw [pack_step2 _ _ (show min (g.getD (i + 1) 0) 3 < 4 by omega)]
  rw [pack_step2 _ _ (show min (g.getD (i + 2) 0) 3 < 4 by omega)]
  rw [pack_step2 _ _ (show min (g.getD (i + 3) 0) 3 < 4 by omega)]
  omega

theorem encodeGroupFixedByte_eq4 (g : List Nat) (i : Nat) :
    encodeGroupFixedByte g 4 i =
      min (g.getD (i + 0) 0) 15 * 16 + min (g.getD (i + 1) 0) 15 := by
  have hmin : ∀ v : Nat, (if 2 ^ 4 - 1 ≤ v then 2 ^ 4 - 1 else v) = min v 15 := by
    intro v
    norm_num
    split
    · rw [min_eq_right (by omega)]
    · rw [min_eq_left (by omega)]
  have m0 : min (g.getD (i + 0) 0) 15 ≤ 15 := Nat.min_le_right _ _
  have m1 : min (g.getD (i + 1) 0) 15 ≤ 15 := Nat.min_le_right _ _
  unfold encodeGroupFixedByte
  rw [show (8 : Nat) / 4 = 2 from rfl, show List.range 2 = [0, 1] from rfl]
  simp only [List.foldl_cons, List.foldl_nil]
  simp only [hmin]
  rw [pack_step4 _ _ (show min (g.getD (i + 0) 0) 15 < 16 by omega)]
  rw [pack_step4 _ _ (show min (g.getD (i + 1) 0) 15 < 16 by omega)]
  omega

theorem specFixedByte_eq2 (g : List Nat) (j : Nat) :
    specFixedByte g 2 j =
      min (g.getD (j * 4 + 0) 0) 3 * 64 + min (g.getD (j * 4 + 1) 0) 3 * 16 +
        min (g.getD (j * 4 + 2) 0) 3 * 4 + min (g.getD (j * 4 + 3) 0) 3 := by
  unfold specFixedByte
  rw [show (8 : Nat) / 2 = 4 from rfl, show List.range 4 = [0, 1, 2, 3] from rfl]
  simp only [List.foldl_cons, List.foldl_nil]
  norm_num

theorem specFixedByte_eq4 (g : List Nat) (j : Nat) :
    specFixedByte g 4 j =
      min (g.getD (j * 2 + 0) 0) 15 * 16 + min (g.getD (j * 2 + 1) 0) 15 := by
  unfold specFixedByte
  rw [show (8 : Nat) / 4 = 2 from rfl, show List.range 2 = [0, 1] from rfl]
  simp only [List.foldl_cons, List.foldl_nil]
  norm_num

theorem map_getD_range_eq (g : List Nat) (hg : g.length = 16) :
    (List.range 16).map (fun i => g.getD i 0) = g := by
  apply List.ext_getElem
  · simp [hg]
  · intro i h1 h2
    simp only [List.getElem_map, List.getElem_range]
    rw [List.getD_eq_getElem g 0 (by omega)]

/-- C3: for every 16-byte group, width 2 and width 4 encodings emit exactly
`16/(8/b)` fixed bytes, each packing `8/b` input values most-significant
first into `b`-bit fields with values at least `2^b - 1` replaced by the
sentinel, followed by one full escape byte per sentinel field in ascending
index order (the spec-worded `specGroupTry`); width 8 emits the 16 bytes
verbatim. -/
theorem C3_group_packing (g : List Nat) (hg : g.length = 16) :
    encodeBytesGroupTry g 2 = some (specGroupTry g 2) ∧
    encodeBytesGroupTry g 4 = some (specGroupTry g 4) ∧
    encodeBytesGroupTry g 8 = some g ∧
    (specGroupTry g 2).length = 16 / (8 / 2) +
      (((List.range 16).map (fun i => g.getD i 0)).filter (fun v => 2 ^ 2 - 1 ≤ v)).length ∧
    (specGroupTry g 4).length = 16 / (8 / 4) +
      (((List.range 16).map (fun i => g.getD i 0)).filter (fun v => 2 ^ 4 - 1 ≤ v)).length := by
  refine ⟨?_, ?_, ?_, by simp [specGroupTry], by simp [specGroupTry]⟩
  · rw [try2_eq, specGroupTry]
    congr 1
    congr 1
    apply List.map_congr_left
    intro j _
    rw [encodeGroupFixedByte_eq2, specFixedByte_eq2]
  · rw [try4_eq, specGroupTry]
    congr 1
    congr 1
    apply List.map_congr_left
    intro j _
    rw [encodeGroupFixedByte_eq4, specFixedByte_eq4]
  · rw [try8_eq, map_getD_range_eq g hg]

/-- C3 witness: the packing equivalence evaluated on the concrete group
`[0,1,2,...,15]`. -/
theorem C3_witness :
    encodeBytesGroupTry ((List.range 16).map (fun i => i)) 2 =
      some (specGroupTry ((List.range 16).map (fun i => i)) 2) ∧
    encodeBytesGroupTry ((List.range 16).map (fun i => i)) 8 =
      some ((List.range 16).map (fun i => i)) := by
  have h := C3_group_packing ((List.range 16).map (fun i => i)) (by decide)
  exact ⟨h.1, h.2.2.1⟩

/-! ## Claim C4: vertex block encoder structure -/

theorem channelDeltas_length (raw : List Nat) : ∀ p, (channelDeltas raw p).length = raw.length := by
  induction raw with
  | nil => intro p; rfl
  | cons v rest ih =>
    intro p
    simp only [channelDeltas, List.length_cons, ih v]

theorem channelDeltas_getD (raw : List Nat) : ∀ p i, i < raw.length →
    (channelDeltas raw p).getD i 0 =
      zigzag8 ((raw.getD i 0 % 256 + 256 -
        (if i = 0 then p else raw.getD (i - 1) 0) % 256) % 256) := by
  induction raw with
  | nil => intro p i hi; simp at hi
  | cons v rest ih =>
    intro p i hi
    match i with
    | 0 => simp [channelDeltas]
    | i + 1 =>
      rw [show channelDeltas (v :: rest) p =
        zigzag8 ((v % 256 + 256 - p % 256) % 256) :: channelDeltas rest v from rfl]
      rw [List.getD_cons_succ, ih v i (by simpa using hi)]
      rw [List.getD_cons_succ]
      have hprev : (v :: rest).getD (i + 1 - 1) 0 = if i = 0 then v else rest.getD (i - 1) 0 := by
        match i with
        | 0 => simp
        | i + 1 => simp [List.getD_cons_succ]
      rw [hprev]
      by_cases hi0 : i = 0
      · simp [hi0]
      · rw [if_neg hi0, if_neg (by omega)]

theorem getD_replicate_zero (m x : Nat) : (List.replicate m 0).getD x 0 = 0 := by
  rw [List.getD_eq_getElem?_getD, List.getElem?_replicate]
  split <;> rfl

theorem paddedDeltas_length (vertex_data : List Nat) (vertex_count vertex_size k p : Nat) :
    (paddedDeltas vertex_data vertex_count vertex_size k p).length =
      16 * ((vertex_count + 15) / 16) := by
  simp only [paddedDeltas, List.length_append, channelDeltas_length, channelRaw,
    List.length_map, List.length_range, List.length_replicate, roundUp16, kByteGroupSize]
  omega

theorem paddedDeltas_getD_lt (vertex_data : List Nat) (vertex_count vertex_size k p i : Nat)
    (hi : i < vertex_count) :
    (paddedDeltas vertex_data vertex_count vertex_size k p).getD i 0 =
      zigzag8 ((vertex_data.getD (i * vertex_size + k) 0 % 256 + 256 -
        (if i = 0 then p else vertex_data.getD ((i - 1) * vertex_size + k) 0) % 256) % 256) := by
  have hlen : (channelDeltas (channelRaw vertex_data vertex_count vertex_size k) p).length =
      vertex_count := by
    rw [channelDeltas_length]
    simp [channelRaw]
  rw [paddedDeltas, List.getD_append _ _ _ _ (by omega)]
  rw [channelDeltas_getD _ p i (by rw [channelRaw]; simp; omega)]
  rw [channelRaw, getD_map_range _ 0 hi]
  by_cases hi0 : i = 0
  · rw [if_pos hi0, if_pos hi0]
  · rw [if_neg hi0, if_neg hi0, getD_map_range _ 0 (by omega)]

theorem paddedDeltas_getD_ge (vertex_data : List Nat) (vertex_count vertex_size k p i : Nat)
    (hi : vertex_count ≤ i) :
    (paddedDeltas vertex_data vertex_count vertex_size k p).getD i 0 = 0 := by
  have hlen : (channelDeltas (channelRaw vertex_data vertex_count vertex_size k) p).length =
      vertex_count := by
    rw [channelDeltas_length]
    simp [channelRaw]
  rw [paddedDeltas, List.getD_append_right _ _ _ _ (by omega), getD_replicate_zero]

theorem channelsNeed_part (vertex_data : List Nat) (vertex_count vertex_size : Nat)
    (last_vertex : List Nat) :
    ∀ (ks : List Nat) (j : Nat), j < ks.length →
      ((ks.take j).map
          (channelEmit vertex_data vertex_count vertex_size last_vertex)).flatten.length +
        bytesNeed (paddedDeltas vertex_data vertex_count vertex_size (ks.getD j 0)
          (last_vertex.getD (ks.getD j 0) 0)) ≤
      channelsNeed vertex_data vertex_count vertex_size last_vertex ks := by
  intro ks
  induction ks with
  | nil => intro j hj; simp at hj
  | cons k ks ih =>
    intro j hj
    match j with
    | 0 =>
      simp only [List.take_zero, List.map_nil, List.flatten_nil, List.length_nil,
        List.getD_cons_zero, channelsNeed, Nat.zero_add]
      exact le_max_left _ _
    | j + 1 =>
      have hih := ih j (by simpa using hj)
      simp only [List.take_succ_cons, List.map_cons, List.flatten_cons, List.length_append,
        List.getD_cons_succ, channelsNeed]
      omega

theorem getD_range (n k : Nat) (hk : k < n) : (List.range n).getD k 0 = k := by
  rw [List.getD_eq_getElem _ _ (by simpa using hk), List.getElem_range]

/-- C4: a successful vertex-block encode processes the channels
`k = 0 .. vertex_size - 1` in order, each channel encoding — through the
group-sequence encoder at the then-current remaining capacity — the buffer of
zigzag deltas seeded from the incoming `last_vertex[k]` with the predictor
updated to the raw byte of each record, zero-padded to the next multiple of
16; and the returned predictor state is the entire last record of the block,
written once after all channels. -/
theorem C4_vertex_block (cap : Nat) (vertex_data : List Nat) (vertex_count vertex_size : Nat)
    (last_vertex out lv2 : List Nat)
    (h1 : 1 ≤ vertex_count) (h2 : vertex_count ≤ 256)
    (h : encodeVertexBlock cap vertex_data vertex_count vertex_size last_vertex =
      some (out, lv2)) :
    lv2 = (List.range vertex_size).map
      (fun k => vertex_data.getD ((vertex_count - 1) * vertex_size + k) 0) ∧
    out = ((List.range vertex_size).map
      (channelEmit vertex_data vertex_count vertex_size last_vertex)).flatten ∧
    (∀ k, k < vertex_size →
      encodeBytes (cap - (((List.range vertex_size).take k).map
          (channelEmit vertex_data vertex_count vertex_size last_vertex)).flatten.length)
        (paddedDeltas vertex_data vertex_count vertex_size k (last_vertex.getD k 0)) =
      some (channelEmit vertex_data vertex_count vertex_size last_vertex k)) ∧
    (∀ k,
      (paddedDeltas vertex_data vertex_count vertex_size k (last_vertex.getD k 0)).length =
        16 * ((vertex_count + 15) / 16) ∧
      (∀ i, i < vertex_count →
        (paddedDeltas vertex_data vertex_count vertex_size k (last_vertex.getD k 0)).getD i 0 =
          zigzag8 ((vertex_data.getD (i * vertex_size + k) 0 % 256 + 256 -
            (if i = 0 then last_vertex.getD k 0
             else vertex_data.getD ((i - 1) * vertex_size + k) 0) % 256) % 256)) ∧
      (∀ i, vertex_count ≤ i →
        (paddedDeltas vertex_data vertex_count vertex_size k
          (last_vertex.getD k 0)).getD i 0 = 0)) := by
  rw [encodeVertexBlock_eq] at h
  by_cases hc : blockNeed vertex_data vertex_count vertex_size last_vertex ≤ cap
  · rw [if_pos hc] at h
    have hpair : out = blockEmit vertex_data vertex_count vertex_size last_vertex ∧
        lv2 = lastRecord vertex_data vertex_count vertex_size := by
      injection h with h3
      have h4 := congrArg Prod.fst h3
      have h5 := congrArg Prod.snd h3
      exact ⟨h4.symm, h5.symm⟩
    refine ⟨hpair.2, hpair.1, ?_, ?_⟩
    · intro k hk
      have hpart := channelsNeed_part vertex_data vertex_count vertex_size last_vertex
        (List.range vertex_size) k (by simpa using hk)
      rw [getD_range vertex_size k hk] at hpart
      rw [encodeBytes_eq, if_pos (by
        simp only [blockNeed] at hc
        omega)]
      rfl
    · intro k
      exact ⟨paddedDeltas_length vertex_data vertex_count vertex_size k _,
        fun i hi => paddedDeltas_getD_lt vertex_data vertex_count vertex_size k _ i hi,
        fun i hi => paddedDeltas_getD_ge vertex_data vertex_count vertex_size k _ i hi⟩
  · rw [if_neg hc] at h
    exact absurd h (by simp)

/-- C4 witness: the block structure at a concrete single-record block of
stride 4 with predictor `[1,2,3,4]` (all four channel deltas are zero, each
channel emits one header byte). -/
theorem C4_witness :
    ([1, 2, 3, 4] : List Nat) = (List.range 4).map
      (fun k => ([1, 2, 3, 4] : List Nat).getD ((1 - 1) * 4 + k) 0) ∧
    ([0, 0, 0, 0] : List Nat) = ((List.range 4).map
      (channelEmit [1, 2, 3, 4] 1 4 [1, 2, 3, 4])).flatten := by
  have h := C4_vertex_block 100 [1, 2, 3, 4] 1 4 [1, 2, 3, 4] [0, 0, 0, 0] [1, 2, 3, 4]
    (by decide) (by decide) (by decide)
  exact ⟨h.1, h.2.1⟩
